import Mathlib

/-!
Shallow embedding of the zeus dependency-injection container
(github.com/Otoru/zeus): `Container.resolve`, `Provide`, `Run`, `Merge`
from `container.go`, `LifecycleHooks` from `hooks/hooks.go`, and
`ErrorSet` from `errs/errs.go`.

Go `reflect.Type` values are modelled as opaque tokens carrying the
attributes the code inspects: a numeric identity, a `Name()`, whether the
type implements the `error` interface, and whether it implements the
`Hooks` interface. Go maps keyed by `reflect.Type` are modelled as
association lists with Go map update semantics. Non-structural recursion
in `resolve` is modelled with a fuel parameter; `none` means the fuel ran
out, and a theorem shows sufficient fuel never runs out.
-/

deriving instance DecidableEq for Except

/-- A Go `reflect.Type` as inspected by the container: identity, `Name()`,
`Implements(error)` and `Implements(Hooks)`. -/
structure Ty where
  id : Nat
  name : String
  isError : Bool := false
  hooks : Bool := false
deriving DecidableEq, Repr

/-- A runtime value (`reflect.Value`). `hooksV` is the container's shared
hooks instance that `resolve` substitutes for Hooks-shaped parameters. -/
inductive Val where
  | unit
  | num (n : Nat)
  | str (s : String)
  | hooksV
  | pair (a b : Val)
deriving DecidableEq, Repr

/-- The error kinds of `errs/errs.go`, plus `user` for errors produced by
user-supplied factories, hooks and entry functions. -/
inductive Err where
  | notAFunction
  | invalidFactoryReturn (numReturns : Nat)
  | unexpectedReturnType (typeName : String)
  | factoryAlreadyProvided (typeName : String)
  | dependencyResolution (typeName : String)
  | cyclicDependency (typeName : String)
  | user (id : Nat) (msg : String)
deriving DecidableEq, Repr

/-- The `Error()` method of each error type in `errs/errs.go`. -/
def Err.message : Err → String
  | .notAFunction => "provided object is not a function"
  | .invalidFactoryReturn n => "factory must return 1 or 2 values, got " ++ toString n
  | .unexpectedReturnType s => "unexpected return type: " ++ s
  | .factoryAlreadyProvided s => "a factory for type " ++ s ++ " has already been provided"
  | .dependencyResolution s => "failed to resolve dependency for type " ++ s
  | .cyclicDependency s => "cyclic dependency detected for type " ++ s
  | .user _ m => m

/-- An error value as returned by `Run`/`Result`: either a bare error or
the `ErrorSet` aggregator itself acting as a composite (holding its
accumulated errors in insertion order). -/
inductive RErr where
  | one (e : Err)
  | set (l : List Err)
deriving DecidableEq, Repr

/-- Message of a returned error. For the composite this is the first call
of `ErrorSet.Error()`: `Errors()` reverses the stored list (most recently
added first) and the texts are joined with `"; "`. -/
def RErr.message : RErr → String
  | .one e => e.message
  | .set l => String.intercalate "; " ((l.map Err.message).reverse)

/-- `errs.ErrorSet`: accumulated errors in insertion order (`Add`
appends). The mutex is irrelevant in this sequential model. -/
structure ErrorSet where
  errors : List Err := []
deriving DecidableEq, Repr

/-- `ErrorSet.Add`: append. -/
def ErrorSet.Add (es : ErrorSet) (e : Err) : ErrorSet :=
  ⟨es.errors ++ [e]⟩

/-- `ErrorSet.IsEmpty`. -/
def ErrorSet.IsEmpty (es : ErrorSet) : Bool :=
  es.errors.length == 0

/-- `ErrorSet.Errors()`: reverses the stored list in place and returns it;
modelled state-passing as (returned list, new state). -/
def ErrorSet.Errors (es : ErrorSet) : List Err × ErrorSet :=
  (es.errors.reverse, ⟨es.errors.reverse⟩)

/-- `ErrorSet.Error()`: join the messages of `Errors()` with `"; "`. -/
def ErrorSet.ErrorStr (es : ErrorSet) : String × ErrorSet :=
  (String.intercalate "; " (es.Errors.1.map Err.message), es.Errors.2)

/-- `ErrorSet.Result()`: nil for zero errors, the lone error for exactly
one, the aggregator itself (as a composite) for two or more. -/
def ErrorSet.Result (es : ErrorSet) : Option RErr :=
  match es.errors with
  | [] => none
  | [e] => some (.one e)
  | l => some (.set l)

/-- Building an `ErrorSet` by `Add`-ing a list of errors to a fresh set. -/
def ErrorSet.addAll (l : List Err) : ErrorSet :=
  l.foldl ErrorSet.Add ⟨[]⟩

/-- A registered lifecycle callable, modelled by an identity and the error
it returns when invoked (`none` = nil). -/
abbrev Hook := Nat × Option Err

/-- Sequential execution of a callable list as in `LifecycleHooks.Start` /
`Stop`: run in order, stop at the first failure. Instrumented with the
identities of the callables that actually ran. -/
def runSeq : List Hook → Option Err × List Nat
  | [] => (none, [])
  | (k, some e) :: _ => (some e, [k])
  | (k, none) :: rest =>
    ((runSeq rest).1, k :: (runSeq rest).2)

/-- `hooks.LifecycleHooks`: the OnStart and OnStop callable lists. -/
structure LifecycleHooks where
  onStart : List Hook := []
  onStop : List Hook := []
deriving DecidableEq, Repr

/-- `LifecycleHooks.OnStart`: append. -/
def LifecycleHooks.OnStart (h : LifecycleHooks) (f : Hook) : LifecycleHooks :=
  { h with onStart := h.onStart ++ [f] }

/-- `LifecycleHooks.OnStop`: append. -/
def LifecycleHooks.OnStop (h : LifecycleHooks) (f : Hook) : LifecycleHooks :=
  { h with onStop := h.onStop ++ [f] }

/-- `LifecycleHooks.Start`: run the OnStart list sequentially, returning
the first error (instrumented with the callables that ran). -/
def LifecycleHooks.Start (h : LifecycleHooks) : Option Err × List Nat :=
  runSeq h.onStart

/-- `LifecycleHooks.Stop`: same sequential fail-fast loop over OnStop. -/
def LifecycleHooks.Stop (h : LifecycleHooks) : Option Err × List Nat :=
  runSeq h.onStop

/-- A Go value passed to `Provide` or `Run`, carrying the reflective
attributes the code inspects and the call behaviour. `fn` yields the pair
(results[0], error channel): for a two-return factory the second
component models `results[1]` (`none` = nil); for a one-return entry
function of type `error` it models the nil-ness of `results[0]`. `fid`
models the function pointer (`reflect.Value.Pointer()`). -/
structure Candidate where
  fid : Nat
  isFunc : Bool := true
  params : List Ty := []
  outs : List Ty := []
  fn : List Val → Val × Option Err := fun _ => (Val.unit, none)

/-- Lookup in a Go map modelled as an association list. -/
def lookupA {β : Type} : List (Ty × β) → Ty → Option β
  | [], _ => none
  | (k, v) :: rest, t => if k = t then some v else lookupA rest t

/-- Go map assignment `m[t] = v`. -/
def insertA {β : Type} : List (Ty × β) → Ty → β → List (Ty × β)
  | [], t, v => [(t, v)]
  | (k, w) :: rest, t, v =>
    if k = t then (t, v) :: rest else (k, w) :: insertA rest t v

/-- `zeus.Container`: provider table, instance cache, shared hooks. -/
structure Container where
  providers : List (Ty × Candidate) := []
  instances : List (Ty × Val) := []
  hooks : LifecycleHooks := {}

/-- One step of `resolve`'s dependency loop: on an error accumulator the
remaining parameters are skipped (the Go loop has returned); a
Hooks-shaped parameter receives the shared hooks instance without a
registry lookup; otherwise the parameter is resolved recursively via `r`.
The state is (instance cache, invoked factory fids, outcome). -/
def depStep (r : List (Ty × Val) → Ty → Option (List (Ty × Val) × List Nat × Except Err Val))
    (acc : Option (List (Ty × Val) × List Nat × Except Err (List Val))) (p : Ty) :
    Option (List (Ty × Val) × List Nat × Except Err (List Val)) :=
  match acc with
  | none => none
  | some (ins, log, .error e) => some (ins, log, .error e)
  | some (ins, log, .ok vs) =>
    if p.hooks = true then some (ins, log, .ok (vs ++ [Val.hooksV]))
    else
      match r ins p with
      | none => none
      | some (ins2, log2, .error e) => some (ins2, log ++ log2, .error e)
      | some (ins2, log2, .ok v) => some (ins2, log ++ log2, .ok (vs ++ [v]))

/-- `Container.resolve(t, stack)` with fuel (`none` = fuel exhausted;
shown sufficient below). Mirrors `container.go`: cycle check against the
stack, instance-cache hit, provider lookup, recursive resolution of the
factory's parameters with the Hooks substitution, factory invocation,
error propagation for a non-nil second result of a two-return factory,
and cache write on success. Instrumented with the list of invoked factory
fids; the provider table `P` is never modified by resolution. -/
def resolveF (P : List (Ty × Candidate)) : Nat → List (Ty × Val) → Ty → List Ty →
    Option (List (Ty × Val) × List Nat × Except Err Val)
  | 0, _, _, _ => none
  | Nat.succ fuel, inst, t, stack =>
    if t ∈ stack then some (inst, [], .error (.cyclicDependency t.name))
    else
      match lookupA inst t with
      | some v => some (inst, [], .ok v)
      | none =>
        match lookupA P t with
        | none => some (inst, [], .error (.dependencyResolution t.name))
        | some f =>
          match f.params.foldl
              (depStep (fun ins p => resolveF P fuel ins p (stack ++ [t])))
              (some (inst, [], .ok [])) with
          | none => none
          | some (ins, log, .error e) => some (ins, log, .error e)
          | some (ins, log, .ok args) =>
            match f.outs.length, (f.fn args).2 with
            | 2, some e => some (ins, log ++ [f.fid], .error e)
            | _, _ => some (insertA ins t (f.fn args).1, log ++ [f.fid], .ok (f.fn args).1)

/-- The entry-function signature checks at the top of `Container.Run`:
must be a function; at most one return value; a sole return value must
be of a type whose `Name()` is `"error"`. -/
def validateRun (fn : Candidate) : Option Err :=
  if fn.isFunc = false then some .notAFunction
  else if 1 < fn.outs.length then some (.invalidFactoryReturn fn.outs.length)
  else
    match fn.outs with
    | [o] => if o.name ≠ "error" then some (.unexpectedReturnType o.name) else none
    | _ => none

/-- `Run`'s parameter loop: resolve each declared parameter in order with
a nil stack, stopping at the first failure. The state is (instance cache,
invoked factory fids, outcome). -/
def runParams (P : List (Ty × Candidate)) (fuel : Nat) :
    List (Ty × Val) → List Ty → Option (List (Ty × Val) × List Nat × Except Err (List Val))
  | inst, [] => some (inst, [], .ok [])
  | inst, t :: ts =>
    match resolveF P fuel inst t [] with
    | none => none
    | some (inst2, log2, .error e) => some (inst2, log2, .error e)
    | some (inst2, log2, .ok v) =>
      match runParams P fuel inst2 ts with
      | none => none
      | some (inst3, log3, .error e) => some (inst3, log2 ++ log3, .error e)
      | some (inst3, log3, .ok vs) => some (inst3, log2 ++ log3, .ok (v :: vs))

/-- Observable outcome of one `Container.Run` call: returned error,
instance cache afterwards, and the execution trace (invoked factory fids,
OnStart callables that ran, whether the entry body ran, OnStop callables
that ran). -/
structure RunOut where
  res : Option RErr
  instances : List (Ty × Val)
  invoked : List Nat
  started : List Nat
  entryRan : Bool
  stopped : List Nat
deriving DecidableEq, Repr

/-- `Container.Run(fn)` with fuel for the resolver. Mirrors
`container.go`: signature validation, parameter resolution (first failure
is added to the ErrorSet and returned — as the lone error it comes back
bare), `hooks.Start()` (failure returns before the entry body and before
any Stop hook), entry invocation, recording of its non-nil error,
`hooks.Stop()`, and `ErrorSet.Result()` over the accumulated errors. -/
def RunF (c : Container) (fn : Candidate) (fuel : Nat) : Option RunOut :=
  match validateRun fn with
  | some e => some ⟨some (.one e), c.instances, [], [], false, []⟩
  | none =>
    match runParams c.providers fuel c.instances fn.params with
    | none => none
    | some (inst2, log2, .error e) => some ⟨some (.one e), inst2, log2, [], false, []⟩
    | some (inst2, log2, .ok args) =>
      match c.hooks.Start with
      | (some e, started) => some ⟨some (.one e), inst2, log2, started, false, []⟩
      | (none, started) =>
        let entryErrs : List Err :=
          if fn.outs.length = 1 then
            match (fn.fn args).2 with
            | some e => [e]
            | none => []
          else []
        let stopRes := c.hooks.Stop
        let allErrs : List Err := entryErrs ++
          (match stopRes.1 with
           | some e => [e]
           | none => [])
        some ⟨ErrorSet.Result ⟨allErrs⟩, inst2, log2, started, true, stopRes.2⟩

/-- One iteration of `Container.Provide`'s loop over its candidates:
validation (callable, return arity, error contract on a second return),
duplicate check on the produced type, then insertion. -/
def Provide1 (c : Container) (f : Candidate) : Except Err Container :=
  if f.isFunc = false then .error .notAFunction
  else
    match f.outs with
    | [] => .error (.invalidFactoryReturn 0)
    | [o0] =>
      match lookupA c.providers o0 with
      | some _ => .error (.factoryAlreadyProvided o0.name)
      | none => .ok { c with providers := insertA c.providers o0 f }
    | [o0, o1] =>
      if o1.isError = false then .error (.unexpectedReturnType o1.name)
      else
        match lookupA c.providers o0 with
        | some _ => .error (.factoryAlreadyProvided o0.name)
        | none => .ok { c with providers := insertA c.providers o0 f }
    | l => .error (.invalidFactoryReturn l.length)

/-- `Container.Provide(factories...)`: left-to-right validation and
insertion; the first invalid candidate stops the loop and is returned,
leaving earlier insertions in place. -/
def ProvideList (c : Container) : List Candidate → Container × Option Err
  | [] => (c, none)
  | f :: fs =>
    match Provide1 c f with
    | .error e => (c, some e)
    | .ok c2 => ProvideList c2 fs

/-- The loop of `Container.Merge` over the other container's provider
entries: copy absent entries, skip identical factories (pointer
equality), abort with `FactoryAlreadyProvidedError` on a conflicting
one. -/
def MergeList (c : Container) : List (Ty × Candidate) → Container × Option Err
  | [] => (c, none)
  | (t, f) :: rest =>
    match lookupA c.providers t with
    | some g =>
      if g.fid ≠ f.fid then (c, some (.factoryAlreadyProvided t.name))
      else MergeList c rest
    | none => MergeList { c with providers := insertA c.providers t f } rest

/-- `A.Merge(B)`. -/
def Container.Merge (a b : Container) : Container × Option Err :=
  MergeList a b.providers

/-! ### Association-list lemmas -/

theorem lookupA_insertA_self {β : Type} (l : List (Ty × β)) (t : Ty) (v : β) :
    lookupA (insertA l t v) t = some v := by
  induction l with
  | nil => simp [insertA, lookupA]
  | cons kv rest ih =>
    obtain ⟨k, w⟩ := kv
    by_cases h : k = t <;> simp [insertA, lookupA, h, ih]

theorem lookupA_insertA_ne {β : Type} (l : List (Ty × β)) (t s : Ty) (v : β)
    (h : s ≠ t) : lookupA (insertA l t v) s = lookupA l s := by
  induction l with
  | nil => simp [insertA, lookupA, h, Ne.symm h]
  | cons kv rest ih =>
    obtain ⟨k, w⟩ := kv
    by_cases hk : k = t
    · subst hk
      simp [insertA, lookupA, Ne.symm h]
    · by_cases hs : k = s <;> simp [insertA, lookupA, hk, hs, h, ih]

theorem lookupA_mem_keys {β : Type} :
    ∀ (l : List (Ty × β)) (t : Ty) (v : β),
      lookupA l t = some v → t ∈ l.map Prod.fst := by
  intro l
  induction l with
  | nil => intro t v h; simp [lookupA] at h
  | cons kv rest ih =>
    intro t v h
    obtain ⟨k, w⟩ := kv
    by_cases hk : k = t
    · simp [hk]
    · simp only [lookupA, if_neg hk] at h
      simp [ih t v h]

/-! ### Sequential hook execution lemmas -/

theorem runSeq_all_none :
    ∀ l : List Hook, (∀ x ∈ l, x.2 = none) → runSeq l = (none, l.map Prod.fst) := by
  intro l
  induction l with
  | nil => intro _; rfl
  | cons x rest ih =>
    intro h
    obtain ⟨k, r⟩ := x
    have hr : r = none := h (k, r) (by simp)
    subst hr
    simp [runSeq, ih (fun y hy => h y (by simp [hy]))]

theorem runSeq_first_fail :
    ∀ (pre : List Hook) (i : Nat) (e : Err) (post : List Hook),
      (∀ x ∈ pre, x.2 = none) →
      runSeq (pre ++ (i, some e) :: post) = (some e, pre.map Prod.fst ++ [i]) := by
  intro pre
  induction pre with
  | nil => intro i e post _; rfl
  | cons x rest ih =>
    intro i e post h
    obtain ⟨k, r⟩ := x
    have hr : r = none := h (k, r) (by simp)
    subst hr
    simp [runSeq, ih i e post (fun y hy => h y (by simp [hy]))]

/-- C5. The hooks implementation the Container uses (`LifecycleHooks`)
runs `Start()` over the OnStart list sequentially in registration order,
fail-fast: the first failing callable's error is returned and the
callables after it never run; with no failure every callable runs in
order and nil is returned. `Stop()` has the same semantics over the
OnStop list. -/
theorem lifecycle_hooks_fail_fast
    (preS postS preT postT okS okT other1 other2 : List Hook)
    (i j : Nat) (e1 e2 : Err)
    (h1 : ∀ x ∈ preS, x.2 = none) (h2 : ∀ x ∈ preT, x.2 = none)
    (h3 : ∀ x ∈ okS, x.2 = none) (h4 : ∀ x ∈ okT, x.2 = none) :
    LifecycleHooks.Start ⟨preS ++ (i, some e1) :: postS, other1⟩ =
      (some e1, preS.map Prod.fst ++ [i]) ∧
    LifecycleHooks.Stop ⟨other2, preT ++ (j, some e2) :: postT⟩ =
      (some e2, preT.map Prod.fst ++ [j]) ∧
    LifecycleHooks.Start ⟨okS, other1⟩ = (none, okS.map Prod.fst) ∧
    LifecycleHooks.Stop ⟨other2, okT⟩ = (none, okT.map Prod.fst) := by
  refine ⟨?_, ?_, ?_, ?_⟩
  · exact runSeq_first_fail preS i e1 postS h1
  · exact runSeq_first_fail preT j e2 postT h2
  · exact runSeq_all_none okS h3
  · exact runSeq_all_none okT h4

theorem lifecycle_hooks_fail_fast_witness :
    LifecycleHooks.Start ⟨[(0, none), (1, some (Err.user 7 "boom")), (2, none)], []⟩ =
      (some (Err.user 7 "boom"), [0, 1]) ∧
    LifecycleHooks.Stop ⟨[], [(3, none), (4, some (Err.user 8 "bang")), (5, none)]⟩ =
      (some (Err.user 8 "bang"), [3, 4]) ∧
    LifecycleHooks.Start ⟨[(0, none), (2, none)], []⟩ = (none, [0, 2]) ∧
    LifecycleHooks.Stop ⟨[], [(3, none)]⟩ = (none, [3]) := by
  have h := lifecycle_hooks_fail_fast
    [(0, none)] [(2, none)] [(3, none)] [(5, none)]
    [(0, none), (2, none)] [(3, none)] [] []
    1 4 (Err.user 7 "boom") (Err.user 8 "bang")
    (by decide) (by decide) (by decide) (by decide)
  exact h

/-! ### ErrorSet lemmas -/

theorem foldl_Add_errors :
    ∀ (l : List Err) (es : ErrorSet), (l.foldl ErrorSet.Add es).errors = es.errors ++ l := by
  intro l
  induction l with
  | nil => intro es; simp
  | cons e rest ih =>
    intro es
    simp [List.foldl, ih, ErrorSet.Add]

theorem addAll_errors (l : List Err) : (ErrorSet.addAll l).errors = l := by
  simp [ErrorSet.addAll, foldl_Add_errors]

/-- C6. `ErrorSet.Result()` over a set built by `Add`-ing a list of
errors: nil for zero errors, the lone error itself for exactly one, the
aggregator as a composite for two or more; the composite's message (first
`Error()` call) is the `"; "`-join of the error texts in reverse
insertion order, most recently added first. -/
theorem errorSet_result_spec (l : List Err) :
    (l = [] → (ErrorSet.addAll l).Result = none) ∧
    (∀ e, l = [e] → (ErrorSet.addAll l).Result = some (.one e)) ∧
    (2 ≤ l.length →
      (ErrorSet.addAll l).Result = some (.set l) ∧
      ((ErrorSet.addAll l).ErrorStr).1 =
        String.intercalate "; " ((l.map Err.message).reverse)) := by
  refine ⟨?_, ?_, ?_⟩
  · intro h
    subst h
    rfl
  · intro e h
    subst h
    rfl
  · intro h
    have he : (ErrorSet.addAll l).errors = l := addAll_errors l
    constructor
    · rw [ErrorSet.Result, he]
      match l, h with
      | a :: b :: rest, _ => rfl
    · rw [ErrorSet.ErrorStr, ErrorSet.Errors, he]
      simp [List.map_reverse]

theorem errorSet_result_spec_witness :
    (ErrorSet.addAll []).Result = none ∧
    (ErrorSet.addAll [Err.user 1 "a"]).Result = some (.one (Err.user 1 "a")) ∧
    (ErrorSet.addAll [Err.user 1 "a", Err.user 2 "b"]).Result =
      some (.set [Err.user 1 "a", Err.user 2 "b"]) ∧
    ((ErrorSet.addAll [Err.user 1 "a", Err.user 2 "b"]).ErrorStr).1 = "b; a" := by
  have h0 := (errorSet_result_spec []).1 rfl
  have h1 := (errorSet_result_spec [Err.user 1 "a"]).2.1 (Err.user 1 "a") rfl
  have h2 := (errorSet_result_spec [Err.user 1 "a", Err.user 2 "b"]).2.2 (by decide)
  exact ⟨h0, h1, h2.1, by rw [h2.2]; rfl⟩

/-! ### Provide lemmas -/

theorem ProvideList_append :
    ∀ (fs : List Candidate) (c c1 : Container) (l : List Candidate),
      ProvideList c fs = (c1, none) →
      ProvideList c (fs ++ l) = ProvideList c1 l := by
  intro fs
  induction fs with
  | nil =>
    intro c c1 l h
    simp only [ProvideList] at h
    obtain ⟨rfl, -⟩ := Prod.mk.injEq .. ▸ h
    rfl
  | cons f fs ih =>
    intro c c1 l h
    simp only [ProvideList, List.cons_append] at h ⊢
    cases hp : Provide1 c f with
    | error e => rw [hp] at h; simp at h
    | ok c2 => rw [hp] at h; exact ih c2 c1 l h

/-- C7. `Provide` validation, in the code's order: a non-callable
candidate fails with `NotAFunctionError`; a callable returning 0 or ≥ 3
values fails with `InvalidFactoryReturnError` carrying that count; a
two-value candidate whose second return does not implement `error` fails
with `UnexpectedReturnTypeError`; an otherwise valid candidate whose
produced type (first return) already has a provider fails with
`FactoryAlreadyProvidedError`; and in a batch call, a failure on a later
candidate stops the loop, returning that error while keeping every
earlier insertion. -/
theorem provide_validation_spec :
    (∀ (c : Container) (f : Candidate), f.isFunc = false →
        Provide1 c f = .error .notAFunction) ∧
    (∀ (c : Container) (f : Candidate), f.isFunc = true →
        (f.outs.length = 0 ∨ 3 ≤ f.outs.length) →
        Provide1 c f = .error (.invalidFactoryReturn f.outs.length)) ∧
    (∀ (c : Container) (f : Candidate) (o0 o1 : Ty), f.isFunc = true →
        f.outs = [o0, o1] → o1.isError = false →
        Provide1 c f = .error (.unexpectedReturnType o1.name)) ∧
    (∀ (c : Container) (f : Candidate) (o0 : Ty) (g : Candidate), f.isFunc = true →
        (f.outs = [o0] ∨ ∃ o1, f.outs = [o0, o1] ∧ o1.isError = true) →
        lookupA c.providers o0 = some g →
        Provide1 c f = .error (.factoryAlreadyProvided o0.name)) ∧
    (∀ (c c1 : Container) (fs : List Candidate) (f : Candidate)
        (rest : List Candidate) (e : Err),
        ProvideList c fs = (c1, none) → Provide1 c1 f = .error e →
        ProvideList c (fs ++ f :: rest) = (c1, some e)) := by
  refine ⟨?_, ?_, ?_, ?_, ?_⟩
  · intro c f h
    simp [Provide1, h]
  · intro c f hf h
    rcases h with h | h
    · have : f.outs = [] := List.length_eq_zero.mp h
      simp [Provide1, hf, this, h]
    · match ho : f.outs, h with
      | a :: b :: d :: rest, _ =>
        rw [ho] at h
        simp [Provide1, hf, ho]
  · intro c f o0 o1 hf ho he
    simp [Provide1, hf, ho, he]
  · intro c f o0 g hf ho hl
    rcases ho with ho | ⟨o1, ho, he⟩
    · simp [Provide1, hf, ho, hl]
    · simp [Provide1, hf, ho, he, hl]
  · intro c c1 fs f rest e h1 h2
    rw [ProvideList_append fs c c1 (f :: rest) h1]
    simp [ProvideList, h2]

def tyInt : Ty := ⟨1, "int", false, false⟩
def tyStr : Ty := ⟨2, "string", false, false⟩
def fInt : Candidate := { fid := 11, outs := [tyInt], fn := fun _ => (Val.num 42, none) }
def fInt2 : Candidate := { fid := 12, outs := [tyInt], fn := fun _ => (Val.num 7, none) }
def fNotFunc : Candidate := { fid := 13, isFunc := false }
def fNoOuts : Candidate := { fid := 14, outs := [] }
def fBadErr : Candidate := { fid := 15, outs := [tyStr, tyInt], fn := fun _ => (Val.str "s", none) }

theorem provide_validation_spec_witness :
    Provide1 {} fNotFunc = .error .notAFunction ∧
    Provide1 {} fNoOuts = .error (.invalidFactoryReturn 0) ∧
    Provide1 {} fBadErr = .error (.unexpectedReturnType "int") ∧
    Provide1 ⟨[(tyInt, fInt)], [], {}⟩ fInt2 = .error (.factoryAlreadyProvided "int") ∧
    ProvideList {} [fInt, fInt2] = (⟨[(tyInt, fInt)], [], {}⟩, some (.factoryAlreadyProvided "int")) := by
  obtain ⟨h1, h2, h3, h4, h5⟩ := provide_validation_spec
  refine ⟨h1 {} fNotFunc rfl, ?_, h3 {} fBadErr tyStr tyInt rfl rfl rfl, ?_, ?_⟩
  · exact h2 {} fNoOuts rfl (Or.inl rfl)
  · exact h4 ⟨[(tyInt, fInt)], [], {}⟩ fInt2 tyInt fInt rfl (Or.inl rfl) rfl
  · exact h5 {} ⟨[(tyInt, fInt)], [], {}⟩ [fInt] fInt2 [] (.factoryAlreadyProvided "int") rfl rfl

/-! ### Merge lemmas -/

theorem MergeList_append :
    ∀ (pre : List (Ty × Candidate)) (a a1 : Container) (l : List (Ty × Candidate)),
      MergeList a pre = (a1, none) →
      MergeList a (pre ++ l) = MergeList a1 l := by
  intro pre
  induction pre with
  | nil =>
    intro a a1 l h
    simp only [MergeList] at h
    obtain ⟨rfl, -⟩ := Prod.mk.injEq .. ▸ h
    rfl
  | cons tf rest ih =>
    intro a a1 l h
    obtain ⟨t, f⟩ := tf
    simp only [MergeList, List.cons_append] at h ⊢
    cases hl : lookupA a.providers t with
    | some g =>
      simp only [hl] at h ⊢
      by_cases hid : g.fid ≠ f.fid
      · simp only [if_pos hid] at h
        simp at h
      · simp only [if_neg hid] at h ⊢
        exact ih a a1 l h
    | none =>
      simp only [hl] at h ⊢
      exact ih _ a1 l h

theorem MergeList_mono :
    ∀ (l : List (Ty × Candidate)) (a a1 : Container) (r : Option Err),
      MergeList a l = (a1, r) →
      ∀ (t : Ty) (v : Candidate), lookupA a.providers t = some v →
        lookupA a1.providers t = some v := by
  intro l
  induction l with
  | nil =>
    intro a a1 r h t v hv
    simp only [MergeList] at h
    obtain ⟨rfl, -⟩ := Prod.mk.injEq .. ▸ h
    exact hv
  | cons tf rest ih =>
    intro a a1 r h t v hv
    obtain ⟨s, f⟩ := tf
    simp only [MergeList] at h
    cases hl : lookupA a.providers s with
    | some g =>
      simp only [hl] at h
      by_cases hid : g.fid ≠ f.fid
      · simp only [if_pos hid] at h
        obtain ⟨rfl, -⟩ := Prod.mk.injEq .. ▸ h
        exact hv
      · simp only [if_neg hid] at h
        exact ih a a1 r h t v hv
    | none =>
      simp only [hl] at h
      apply ih _ a1 r h t v
      have hts : t ≠ s := by
        intro he
        rw [he, hl] at hv
        exact Option.noConfusion hv
      simpa [lookupA_insertA_ne a.providers s t f hts] using hv

theorem MergeList_covers :
    ∀ (l : List (Ty × Candidate)) (a a1 : Container),
      MergeList a l = (a1, none) →
      ∀ (t : Ty) (f : Candidate), (t, f) ∈ l →
        ∃ h, lookupA a1.providers t = some h := by
  intro l
  induction l with
  | nil =>
    intro a a1 _ t f hmem
    simp at hmem
  | cons tf rest ih =>
    intro a a1 hm t f hmem
    obtain ⟨s, g⟩ := tf
    simp only [MergeList] at hm
    cases hl : lookupA a.providers s with
    | some g2 =>
      simp only [hl] at hm
      by_cases hid : g2.fid ≠ g.fid
      · simp only [if_pos hid] at hm
        simp at hm
      · simp only [if_neg hid] at hm
        rcases List.mem_cons.mp hmem with he | hmem2
        · obtain ⟨rfl, rfl⟩ := Prod.mk.injEq .. ▸ he
          exact ⟨g2, MergeList_mono rest a a1 none hm t g2 hl⟩
        · exact ih a a1 hm t f hmem2
    | none =>
      simp only [hl] at hm
      rcases List.mem_cons.mp hmem with he | hmem2
      · obtain ⟨rfl, rfl⟩ := Prod.mk.injEq .. ▸ he
        refine ⟨f, MergeList_mono rest _ a1 none hm t f ?_⟩
        exact lookupA_insertA_self a.providers t f
      · exact ih _ a1 hm t f hmem2

/-- C8. `A.Merge(B)` iterates B's provider entries: an entry whose type
is absent from the current table is copied in; an entry whose type is
present with the identical factory reference (same pointer) is silently
skipped; an entry whose type is present with a different factory aborts
with `FactoryAlreadyProvidedError` for that type, leaving A exactly as
built from the entries before the failing one (no further entry is
copied); and a successful merge leaves every type of B present in the
result. -/
theorem merge_spec :
    (∀ (a : Container) (t : Ty) (f : Candidate) (rest : List (Ty × Candidate)),
        lookupA a.providers t = none →
        MergeList a ((t, f) :: rest) =
          MergeList { a with providers := insertA a.providers t f } rest) ∧
    (∀ (a : Container) (t : Ty) (f g : Candidate) (rest : List (Ty × Candidate)),
        lookupA a.providers t = some g → g.fid = f.fid →
        MergeList a ((t, f) :: rest) = MergeList a rest) ∧
    (∀ (a a1 : Container) (pre : List (Ty × Candidate)) (t : Ty) (f g : Candidate)
        (post : List (Ty × Candidate)),
        MergeList a pre = (a1, none) →
        lookupA a1.providers t = some g → g.fid ≠ f.fid →
        MergeList a (pre ++ (t, f) :: post) = (a1, some (.factoryAlreadyProvided t.name))) ∧
    (∀ (a b a1 : Container), a.Merge b = (a1, none) →
        ∀ (t : Ty) (f : Candidate), (t, f) ∈ b.providers →
          ∃ h, lookupA a1.providers t = some h) := by
  refine ⟨?_, ?_, ?_, ?_⟩
  · intro a t f rest h
    simp [MergeList, h]
  · intro a t f g rest h hid
    simp [MergeList, h, hid]
  · intro a a1 pre t f g post h1 h2 h3
    rw [MergeList_append pre a a1 ((t, f) :: post) h1]
    simp [MergeList, h2, h3]
  · intro a b a1 h t f hmem
    exact MergeList_covers b.providers a a1 h t f hmem

def cA : Container := ⟨[(tyInt, fInt)], [], {}⟩
def cB : Container := ⟨[(tyStr, fBadErr), (tyInt, fInt2)], [], {}⟩
def cBsame : Container := ⟨[(tyInt, fInt), (tyStr, fBadErr)], [], {}⟩

theorem merge_spec_witness :
    MergeList cA [(tyStr, fBadErr)] =
      MergeList ⟨[(tyInt, fInt), (tyStr, fBadErr)], [], {}⟩ [] ∧
    MergeList cA [(tyInt, fInt)] = MergeList cA [] ∧
    cA.Merge cB = (⟨[(tyInt, fInt), (tyStr, fBadErr)], [], {}⟩,
      some (.factoryAlreadyProvided "int")) ∧
    (∃ h, lookupA (cA.Merge cBsame).1.providers tyStr = some h) := by
  obtain ⟨h1, h2, h3, h4⟩ := merge_spec
  refine ⟨h1 cA tyStr fBadErr [] rfl, h2 cA tyInt fInt fInt [] rfl rfl, ?_, ?_⟩
  · have := h3 cA ⟨[(tyInt, fInt), (tyStr, fBadErr)], [], {}⟩ [(tyStr, fBadErr)]
      tyInt fInt2 fInt [] rfl rfl (by decide)
    simpa [Container.Merge, cB] using this
  · exact h4 cA cBsame (cA.Merge cBsame).1 rfl tyStr fBadErr (by simp [cBsame])

/-! ### Resolver lemmas -/

theorem depStep_ne_none
    (r : List (Ty × Val) → Ty → Option (List (Ty × Val) × List Nat × Except Err Val))
    (hr : ∀ ins p, r ins p ≠ none) (acc : Option (List (Ty × Val) × List Nat × Except Err (List Val)))
    (p : Ty) (h : acc ≠ none) : depStep r acc p ≠ none := by
  match acc with
  | none => exact absurd rfl h
  | some (ins, log, .error e) => simp [depStep]
  | some (ins, log, .ok vs) =>
    simp only [depStep]
    by_cases hp : p.hooks = true
    · simp [hp]
    · simp only [if_neg hp]
      cases hre : r ins p with
      | none => exact absurd hre (hr ins p)
      | some x =>
        obtain ⟨ins2, log2, res⟩ := x
        cases res <;> simp

theorem foldl_depStep_ne_none
    (r : List (Ty × Val) → Ty → Option (List (Ty × Val) × List Nat × Except Err Val))
    (hr : ∀ ins p, r ins p ≠ none) :
    ∀ (params : List Ty) (acc : Option (List (Ty × Val) × List Nat × Except Err (List Val))),
      acc ≠ none → params.foldl (depStep r) acc ≠ none := by
  intro params
  induction params with
  | nil => intro acc h; simpa using h
  | cons p ps ih =>
    intro acc h
    exact ih (depStep r acc p) (depStep_ne_none r hr acc p h)

/-- With fuel exceeding the number of registered provider types not yet
on the stack, `resolve` never exhausts its fuel: the recursion depth is
bounded because each recursive call pushes a provider type not yet on the
stack. -/
theorem resolveF_ne_none :
    ∀ (fuel : Nat) (P : List (Ty × Candidate)) (inst : List (Ty × Val)) (t : Ty)
      (stack : List Ty),
      ((P.map Prod.fst).toFinset \ stack.toFinset).card < fuel →
      resolveF P fuel inst t stack ≠ none := by
  intro fuel
  induction fuel with
  | zero => intro P inst t stack h; omega
  | succ n ih =>
    intro P inst t stack h
    simp only [resolveF]
    by_cases hst : t ∈ stack
    · simp [hst]
    · simp only [if_neg hst]
      cases hinst : lookupA inst t with
      | some v => simp
      | none =>
        simp only []
        cases hprov : lookupA P t with
        | none => simp
        | some f =>
          simp only []
          have hkey : t ∈ P.map Prod.fst := lookupA_mem_keys P t f hprov
          have hcard : ((P.map Prod.fst).toFinset \ (stack ++ [t]).toFinset).card < n := by
            have h1 : (stack ++ [t]).toFinset = insert t stack.toFinset := by
              ext x
              simp [List.mem_toFinset, or_comm]
            rw [h1, Finset.sdiff_insert]
            have hmem : t ∈ (P.map Prod.fst).toFinset \ stack.toFinset := by
              simp [Finset.mem_sdiff, List.mem_toFinset, hkey, hst]
            have hc := Finset.card_erase_of_mem hmem
            have hpos : 0 < ((P.map Prod.fst).toFinset \ stack.toFinset).card :=
              Finset.card_pos.mpr ⟨t, hmem⟩
            omega
          have hr : ∀ ins p, resolveF P n ins p (stack ++ [t]) ≠ none :=
            fun ins p => ih P ins p (stack ++ [t]) hcard
          have hfold := foldl_depStep_ne_none _ hr f.params (some (inst, [], .ok [])) (by simp)
          cases hfd : f.params.foldl
              (depStep fun ins p => resolveF P n ins p (stack ++ [t]))
              (some (inst, [], Except.ok [])) with
          | none => exact absurd hfd hfold
          | some x =>
            obtain ⟨ins, log, res⟩ := x
            cases res with
            | error e => simp
            | ok args =>
              simp only []
              split <;> simp

/-- C2. Cycle safety and termination of `resolve`: with fuel exceeding
the size of the provider table the recursion always completes, and
whenever the requested type is already on the resolution stack the call
fails immediately with `CyclicDependencyError` naming that type — no
recursion, no factory invocation, no cache mutation — which is what keeps
the stack free of duplicate types. -/
theorem resolve_terminates_and_cycle_safe
    (P : List (Ty × Candidate)) (inst : List (Ty × Val)) (t : Ty) (stack : List Ty)
    (fuel : Nat) (hfuel : P.length < fuel) :
    resolveF P fuel inst t stack ≠ none ∧
    (t ∈ stack →
      resolveF P fuel inst t stack =
        some (inst, [], .error (.cyclicDependency t.name))) := by
  have hcard : ((P.map Prod.fst).toFinset \ stack.toFinset).card < fuel := by
    have h1 : ((P.map Prod.fst).toFinset \ stack.toFinset).card ≤ (P.map Prod.fst).toFinset.card :=
      Finset.card_le_card (Finset.sdiff_subset)
    have h2 : (P.map Prod.fst).toFinset.card ≤ (P.map Prod.fst).length :=
      (P.map Prod.fst).toFinset_card_le
    simp only [List.length_map] at h2
    omega
  refine ⟨resolveF_ne_none fuel P inst t stack hcard, ?_⟩
  intro hmem
  cases fuel with
  | zero => omega
  | succ n => simp [resolveF, hmem]

def cyc1 : Ty := ⟨21, "T1", false, false⟩
def cyc2 : Ty := ⟨22, "T2", false, false⟩
def fCyc1 : Candidate := { fid := 31, params := [cyc2], outs := [cyc1] }
def fCyc2 : Candidate := { fid := 32, params := [cyc1], outs := [cyc2] }
def Pcyc : List (Ty × Candidate) := [(cyc1, fCyc1), (cyc2, fCyc2)]

theorem resolve_terminates_and_cycle_safe_witness :
    (Pcyc.length < 3 ∧
      resolveF Pcyc 3 [] cyc1 [cyc1, cyc2] ≠ none ∧
      resolveF Pcyc 3 [] cyc1 [cyc1, cyc2] =
        some ([], [], .error (.cyclicDependency "T1"))) ∧
    resolveF Pcyc 3 [] cyc1 [] =
      some ([], [], .error (.cyclicDependency "T1")) := by
  have h := resolve_terminates_and_cycle_safe Pcyc [] cyc1 [cyc1, cyc2] 3 (by decide)
  exact ⟨⟨by decide, h.1, h.2 (by decide)⟩, rfl⟩

/-- A successful `resolve` leaves the resolved value in the instance
cache under the requested type (either it was already there, or the
factory's first result was just written). -/
theorem resolveF_ok_lookup :
    ∀ (P : List (Ty × Candidate)) (fuel : Nat) (inst inst2 : List (Ty × Val)) (t : Ty)
      (stack : List Ty) (log : List Nat) (v : Val),
      resolveF P fuel inst t stack = some (inst2, log, Except.ok v) →
      lookupA inst2 t = some v := by
  intro P fuel inst inst2 t stack log v h
  cases fuel with
  | zero => exact absurd h (by simp [resolveF])
  | succ n =>
    simp only [resolveF] at h
    by_cases hst : t ∈ stack
    · simp [hst] at h
    · simp only [if_neg hst] at h
      cases hinst : lookupA inst t with
      | some w =>
        simp only [hinst, Option.some.injEq, Prod.mk.injEq, Except.ok.injEq] at h
        obtain ⟨h1, -, h3⟩ := h
        rw [← h1, hinst, h3]
      | none =>
        simp only [hinst] at h
        cases hprov : lookupA P t with
        | none => simp [hprov] at h
        | some f =>
          simp only [hprov] at h
          cases hfd : f.params.foldl
              (depStep fun ins p => resolveF P n ins p (stack ++ [t]))
              (some (inst, [], Except.ok [])) with
          | none => simp [hfd] at h
          | some x =>
            obtain ⟨ins, log1, res⟩ := x
            cases res with
            | error e => simp [hfd] at h
            | ok args =>
              simp only [hfd] at h
              split at h
              · simp at h
              · simp only [Option.some.injEq, Prod.mk.injEq, Except.ok.injEq] at h
                obtain ⟨h1, -, h3⟩ := h
                rw [← h1, ← h3]
                exact lookupA_insertA_self ins t (f.fn args).1

/-- C1. Singleton memoization: once a type has resolved successfully (its
value sits in the instance cache), any later `resolve` of that type — a
direct second call or an encounter as a shared sub-dependency on another
resolution path — returns the identical cached value, invokes no factory
at all (empty invocation log), and leaves the cache unchanged, so the
factory runs exactly once per container. -/
theorem resolve_singleton_memoization
    (P : List (Ty × Candidate)) (fuel fuel2 : Nat) (inst inst1 : List (Ty × Val))
    (t : Ty) (stack stack2 : List Ty) (log : List Nat) (v : Val)
    (h : resolveF P fuel inst t stack = some (inst1, log, Except.ok v))
    (h2 : t ∉ stack2) (hf : 0 < fuel2) :
    resolveF P fuel2 inst1 t stack2 = some (inst1, [], Except.ok v) := by
  have hl := resolveF_ok_lookup P fuel inst inst1 t stack log v h
  cases fuel2 with
  | zero => omega
  | succ n => simp [resolveF, h2, hl]

def tyC : Ty := ⟨41, "C", false, false⟩
def tyA : Ty := ⟨42, "A", false, false⟩
def tyB : Ty := ⟨43, "B", false, false⟩
def fC : Candidate := { fid := 3, outs := [tyC], fn := fun _ => (Val.num 7, none) }
def fA : Candidate :=
  { fid := 1, params := [tyC], outs := [tyA],
    fn := fun args => (Val.pair (Val.num 1) (args.headD Val.unit), none) }
def fB : Candidate :=
  { fid := 2, params := [tyC], outs := [tyB],
    fn := fun args => (Val.pair (Val.num 2) (args.headD Val.unit), none) }
def Pdiamond : List (Ty × Candidate) := [(tyC, fC), (tyA, fA), (tyB, fB)]

theorem resolve_singleton_memoization_witness :
    (resolveF Pdiamond 4 [] tyC [] = some ([(tyC, Val.num 7)], [3], Except.ok (Val.num 7)) ∧
      resolveF Pdiamond 4 [(tyC, Val.num 7)] tyC [] =
        some ([(tyC, Val.num 7)], [], Except.ok (Val.num 7))) ∧
    runParams Pdiamond 4 [] [tyA, tyB] =
      some ([(tyC, Val.num 7), (tyA, Val.pair (Val.num 1) (Val.num 7)),
             (tyB, Val.pair (Val.num 2) (Val.num 7))],
        [3, 1, 2],
        Except.ok [Val.pair (Val.num 1) (Val.num 7), Val.pair (Val.num 2) (Val.num 7)]) := by
  refine ⟨⟨rfl, ?_⟩, rfl⟩
  exact resolve_singleton_memoization Pdiamond 4 4 [] [(tyC, Val.num 7)] tyC [] [] [3]
    (Val.num 7) rfl (by decide) (by decide)

/-! ### Run lemmas -/

theorem runParams_fail_after (P : List (Ty × Candidate)) (fuel : Nat) :
    ∀ (pre : List Ty) (inst inst1 : List (Ty × Val)) (log : List Nat) (vals : List Val)
      (t : Ty) (ts : List Ty) (inst2 : List (Ty × Val)) (log2 : List Nat) (e : Err),
      runParams P fuel inst pre = some (inst1, log, Except.ok vals) →
      resolveF P fuel inst1 t [] = some (inst2, log2, Except.error e) →
      runParams P fuel inst (pre ++ t :: ts) = some (inst2, log ++ log2, Except.error e) := by
  intro pre
  induction pre with
  | nil =>
    intro inst inst1 log vals t ts inst2 log2 e h1 h2
    simp only [runParams, Option.some.injEq, Prod.mk.injEq] at h1
    obtain ⟨hi, hl, -⟩ := h1
    subst hi
    rw [← hl]
    simp only [List.nil_append, runParams, h2, List.nil_append]
  | cons p ps ih =>
    intro inst inst1 log vals t ts inst2 log2 e h1 h2
    simp only [runParams] at h1
    rw [List.cons_append]
    simp only [runParams]
    cases hr : resolveF P fuel inst p [] with
    | none => simp [hr] at h1
    | some x =>
      obtain ⟨instA, logA, res⟩ := x
      cases res with
      | error e2 => simp [hr] at h1
      | ok v =>
        simp only [hr] at h1 ⊢
        cases hrest : runParams P fuel instA ps with
        | none => simp [hrest] at h1
        | some y =>
          obtain ⟨instB, logB, res2⟩ := y
          cases res2 with
          | error e2 => simp [hrest] at h1
          | ok vs =>
            simp only [hrest, Option.some.injEq, Prod.mk.injEq] at h1
            obtain ⟨hi, hl, -⟩ := h1
            subst hi
            simp only [ih instA instB logB vs t ts inst2 log2 e hrest h2]
            simp [← hl, List.append_assoc]

theorem RunF_first_param_failure
    (c : Container) (fn : Candidate) (fuel : Nat) (pre : List Ty) (t : Ty) (ts : List Ty)
    (inst1 : List (Ty × Val)) (log : List Nat) (vals : List Val)
    (inst2 : List (Ty × Val)) (log2 : List Nat) (e : Err)
    (hv : validateRun fn = none)
    (hp : fn.params = pre ++ t :: ts)
    (h1 : runParams c.providers fuel c.instances pre = some (inst1, log, Except.ok vals))
    (h2 : resolveF c.providers fuel inst1 t [] = some (inst2, log2, Except.error e)) :
    RunF c fn fuel = some ⟨some (.one e), inst2, log ++ log2, [], false, []⟩ := by
  have h3 := runParams_fail_after c.providers fuel pre c.instances inst1 log vals
    t ts inst2 log2 e h1 h2
  simp [RunF, hv, hp, h3]

/-- C3. When the parameters before position k of the entry function all
resolve and the parameter at position k fails, `Run` returns that
resolution error itself — bare, not wrapped in an ErrorSet composite —
and no OnStart hook, entry body, or OnStop hook ever runs. -/
theorem run_aborts_on_param_failure
    (c : Container) (fn : Candidate) (fuel : Nat) (pre : List Ty) (t : Ty) (ts : List Ty)
    (inst1 : List (Ty × Val)) (log : List Nat) (vals : List Val)
    (inst2 : List (Ty × Val)) (log2 : List Nat) (e : Err)
    (hv : validateRun fn = none)
    (hp : fn.params = pre ++ t :: ts)
    (h1 : runParams c.providers fuel c.instances pre = some (inst1, log, Except.ok vals))
    (h2 : resolveF c.providers fuel inst1 t [] = some (inst2, log2, Except.error e)) :
    RunF c fn fuel = some ⟨some (.one e), inst2, log ++ log2, [], false, []⟩ :=
  RunF_first_param_failure c fn fuel pre t ts inst1 log vals inst2 log2 e hv hp h1 h2

def fnNeedsInt : Candidate := { fid := 71, params := [tyInt], outs := [] }

theorem run_aborts_on_param_failure_witness :
    RunF {} fnNeedsInt 1 =
      some ⟨some (.one (.dependencyResolution "int")), [], [], [], false, []⟩ := by
  have h := run_aborts_on_param_failure {} fnNeedsInt 1 [] tyInt [] [] [] [] [] []
    (.dependencyResolution "int") rfl rfl rfl rfl
  simpa using h

/-- C4. When an OnStart hook fails (the first failing callable of the
OnStart list), `Run` returns that Start error (bare), the entry function
never runs, and no OnStop hook runs. -/
theorem run_start_failure_skips_entry_and_stop
    (c : Container) (fn : Candidate) (fuel : Nat)
    (inst2 : List (Ty × Val)) (log : List Nat) (args : List Val)
    (pre post : List Hook) (i : Nat) (e : Err)
    (hv : validateRun fn = none)
    (hp : runParams c.providers fuel c.instances fn.params = some (inst2, log, Except.ok args))
    (hs : c.hooks.onStart = pre ++ (i, some e) :: post)
    (hpre : ∀ x ∈ pre, x.2 = none) :
    RunF c fn fuel = some ⟨some (.one e), inst2, log, pre.map Prod.fst ++ [i], false, []⟩ := by
  have hstart : c.hooks.Start = (some e, pre.map Prod.fst ++ [i]) := by
    rw [LifecycleHooks.Start, hs]
    exact runSeq_first_fail pre i e post hpre
  simp [RunF, hv, hp, hstart]

def fnTrivial : Candidate := { fid := 72 }
def cStartFails : Container :=
  { hooks := ⟨[(0, none), (1, some (Err.user 9 "start failed"))], [(2, none)]⟩ }

theorem run_start_failure_skips_entry_and_stop_witness :
    RunF cStartFails fnTrivial 1 =
      some ⟨some (.one (.user 9 "start failed")), [], [], [0, 1], false, []⟩ := by
  have h := run_start_failure_skips_entry_and_stop cStartFails fnTrivial 1 [] [] []
    [(0, none)] [] 1 (.user 9 "start failed") rfl rfl rfl (by decide)
  simpa using h

/-- C9 (amended). Entry-function signature validation in `Run`: zero
return values are accepted; more than one is rejected with
`InvalidFactoryReturnError`; a sole return value is accepted if and only
if its type's `Name()` is the string `"error"` — the code compares the
reflected type name, not whether the type implements the `error`
interface — rejecting any other name with `UnexpectedReturnTypeError`;
and a validation error is returned by `Run` as is, before any resolution,
hook, or entry execution. -/
theorem run_signature_validation (fn : Candidate) (hf : fn.isFunc = true) :
    (fn.outs = [] → validateRun fn = none) ∧
    (2 ≤ fn.outs.length →
      validateRun fn = some (.invalidFactoryReturn fn.outs.length)) ∧
    (∀ o, fn.outs = [o] →
      validateRun fn =
        if o.name = "error" then none else some (.unexpectedReturnType o.name)) ∧
    (∀ (c : Container) (fuel : Nat) (e : Err), validateRun fn = some e →
      RunF c fn fuel = some ⟨some (.one e), c.instances, [], [], false, []⟩) := by
  refine ⟨?_, ?_, ?_, ?_⟩
  · intro h
    simp [validateRun, hf, h]
  · intro h
    have h1 : 1 < fn.outs.length := by omega
    simp [validateRun, hf, h1]
  · intro o ho
    by_cases hn : o.name = "error" <;> simp [validateRun, hf, ho, hn]
  · intro c fuel e h
    simp [RunF, h]

theorem run_signature_validation_witness :
    validateRun fnTrivial = none ∧
    validateRun { fid := 73, outs := [tyInt, tyStr] } =
      some (.invalidFactoryReturn 2) ∧
    validateRun { fid := 74, outs := [⟨75, "error", true, false⟩] } = none ∧
    RunF {} { fid := 76, outs := [tyInt, tyStr] } 1 =
      some ⟨some (.one (.invalidFactoryReturn 2)), [], [], [], false, []⟩ := by
  refine ⟨(run_signature_validation fnTrivial rfl).1 rfl, ?_, ?_, ?_⟩
  · exact (run_signature_validation _ rfl).2.1 (by decide)
  · have h := (run_signature_validation { fid := 74, outs := [⟨75, "error", true, false⟩] }
      rfl).2.2.1 ⟨75, "error", true, false⟩ rfl
    simpa using h
  · exact (run_signature_validation { fid := 76, outs := [tyInt, tyStr] } rfl).2.2.2
      {} 1 (.invalidFactoryReturn 2) rfl

/-- The claim "Run accepts a sole return value iff it satisfies the error
contract" fails on the code: this entry function's sole return type
implements the `error` interface (`isError = true`) but is named
`"MyErr"`, and `Run` rejects it with `UnexpectedReturnTypeError` because
the code compares the type's name against `"error"`. -/
theorem run_error_contract_name_counterexample :
    (⟨100, "MyErr", true, false⟩ : Ty).isError = true ∧
    RunF {} { fid := 50, outs := [⟨100, "MyErr", true, false⟩] } 1 =
      some ⟨some (.one (.unexpectedReturnType "MyErr")), [], [], [], false, []⟩ :=
  ⟨rfl, rfl⟩

/-- C10. The Hooks capability is substituted only for factory parameters
inside `resolve`, not for entry-function parameters: an entry-function
parameter whose type implements `Hooks`, in a container with no provider
or instance for it, makes `Run` fail with `DependencyResolutionError` for
that type (nothing is injected, no hook or entry body runs); by contrast
a factory parameter implementing `Hooks` receives the shared hooks
instance with no registry lookup at all. -/
theorem run_hooks_param_not_substituted :
    (∀ (c : Container) (fn : Candidate) (fuel : Nat) (pre : List Ty) (t : Ty) (ts : List Ty)
       (inst1 : List (Ty × Val)) (log : List Nat) (vals : List Val),
       validateRun fn = none →
       fn.params = pre ++ t :: ts →
       t.hooks = true →
       runParams c.providers fuel c.instances pre = some (inst1, log, Except.ok vals) →
       lookupA inst1 t = none →
       lookupA c.providers t = none →
       0 < fuel →
       RunF c fn fuel =
         some ⟨some (.one (.dependencyResolution t.name)), inst1, log, [], false, []⟩) ∧
    (∀ (P : List (Ty × Candidate)) (fuel : Nat) (ins : List (Ty × Val)) (u : Ty)
       (stack : List Ty) (f : Candidate) (th : Ty),
       u ∉ stack → lookupA ins u = none → lookupA P u = some f →
       f.params = [th] → th.hooks = true → f.outs.length = 1 →
       resolveF P (fuel + 1) ins u stack =
         some (insertA ins u (f.fn [Val.hooksV]).1, [f.fid],
           Except.ok (f.fn [Val.hooksV]).1)) := by
  constructor
  · intro c fn fuel pre t ts inst1 log vals hv hp hth h1 hni hnp hf
    have h2 : resolveF c.providers fuel inst1 t [] =
        some (inst1, [], Except.error (.dependencyResolution t.name)) := by
      cases fuel with
      | zero => omega
      | succ n => simp [resolveF, hni, hnp]
    have h3 := RunF_first_param_failure c fn fuel pre t ts inst1 log vals inst1 []
      (.dependencyResolution t.name) hv hp h1 h2
    simpa using h3
  · intro P fuel ins u stack f th hu hni hpf hparams hth houts
    simp [resolveF, hu, hni, hpf, hparams, hth, houts, depStep]

def tyHooksI : Ty := ⟨60, "Hooks", false, true⟩
def fnWantsHooks : Candidate := { fid := 61, params := [tyHooksI] }
def tyDB : Ty := ⟨62, "DB", false, false⟩
def fDB : Candidate :=
  { fid := 63, params := [tyHooksI], outs := [tyDB], fn := fun _ => (Val.str "db", none) }

theorem run_hooks_param_not_substituted_witness :
    RunF {} fnWantsHooks 1 =
      some ⟨some (.one (.dependencyResolution "Hooks")), [], [], [], false, []⟩ ∧
    resolveF [(tyDB, fDB)] 1 [] tyDB [] =
      some ([(tyDB, Val.str "db")], [63], Except.ok (Val.str "db")) := by
  constructor
  · exact (run_hooks_param_not_substituted.1) {} fnWantsHooks 1 [] tyHooksI [] [] [] []
      rfl rfl rfl rfl rfl rfl (by decide)
  · have h := (run_hooks_param_not_substituted.2) [(tyDB, fDB)] 0 [] tyDB [] fDB tyHooksI
      (by decide) rfl rfl rfl rfl rfl
    simpa using h
